import Mathlib

/-!
# Verification of `seqan3::detail::view_translate_join` and the debug-stream range printer

Shallow embedding of the two core source files:

* `include/seqan3/range/view/translate_join.hpp` — the joined multi-frame
  translation view: resolution of a six-bit frame bitmask into an ordered
  frame list (constructor, lines 104–119), `size()` (lines 215–225) and
  `operator[]` (lines 245–261).
* `include/seqan3/core/detail/debug_stream_range.hpp` — the generic
  `operator<<` overload that prints an input range either as a plain
  concatenation of symbols (Alphabet branch) or bracketed and
  comma-separated (general branch), lines 86–121.

The outer collection is modelled as a `List (List α)` (a sized random-access
range of sized random-access ranges), machine sizes as `Nat`, and the
external single-frame translator as an abstract constructor pairing the
inner sequence with the chosen frame (the spec treats it as an external
collaborator: `translate(subsequence, frame) -> lazy_amino_acid_sequence`).
-/

/-- The six reading-frame identifiers, in the canonical declaration order
forward-0,1,2 then reverse-0,1,2 (source: `translation_frames` enumerators
used in `translate_join.hpp` lines 107–118). -/
inductive translation_frame where
  | FWD_FRAME_0
  | FWD_FRAME_1
  | FWD_FRAME_2
  | REV_FRAME_0
  | REV_FRAME_1
  | REV_FRAME_2
deriving DecidableEq

/-- Modelled from the spec: the bitmask type has "one bit per frame kind, six
kinds total" with independent, combinable bits (the `translation_frames` enum
definition itself lives in `translate.hpp`, which is not among the source
files).  Each frame identifier is assigned its own bit, in canonical bit
positions 0–5. -/
def frame_bit : translation_frame → Nat
  | .FWD_FRAME_0 => 1
  | .FWD_FRAME_1 => 2
  | .FWD_FRAME_2 => 4
  | .REV_FRAME_0 => 8
  | .REV_FRAME_1 => 16
  | .REV_FRAME_2 => 32

/-- The bit position of each frame's bit: `frame_bit f = 2 ^ frame_pos f`. -/
def frame_pos : translation_frame → Nat
  | .FWD_FRAME_0 => 0
  | .FWD_FRAME_1 => 1
  | .FWD_FRAME_2 => 2
  | .REV_FRAME_0 => 3
  | .REV_FRAME_1 => 4
  | .REV_FRAME_2 => 5

/-- The default bitmask `translation_frames::SIX_FRAME`: all six bits set. -/
def SIX_FRAME : Nat := 63

/-- The six frames in canonical order forward-0,1,2 then reverse-0,1,2. -/
def canonical_frames : List translation_frame :=
  [.FWD_FRAME_0, .FWD_FRAME_1, .FWD_FRAME_2, .REV_FRAME_0, .REV_FRAME_1, .REV_FRAME_2]

/-- The frame-selection resolver: the body of the `view_translate_join`
constructor (`translate_join.hpp` lines 107–118).  Six bit tests in
declaration order, each `(_tf & F) == F` test appending `F` to
`selected_frames` when it passes. -/
def selected_frames_of (tf : Nat) : List translation_frame :=
  let sf : List translation_frame := []
  let sf := if tf &&& frame_bit .FWD_FRAME_0 = frame_bit .FWD_FRAME_0 then sf ++ [.FWD_FRAME_0] else sf
  let sf := if tf &&& frame_bit .FWD_FRAME_1 = frame_bit .FWD_FRAME_1 then sf ++ [.FWD_FRAME_1] else sf
  let sf := if tf &&& frame_bit .FWD_FRAME_2 = frame_bit .FWD_FRAME_2 then sf ++ [.FWD_FRAME_2] else sf
  let sf := if tf &&& frame_bit .REV_FRAME_0 = frame_bit .REV_FRAME_0 then sf ++ [.REV_FRAME_0] else sf
  let sf := if tf &&& frame_bit .REV_FRAME_1 = frame_bit .REV_FRAME_1 then sf ++ [.REV_FRAME_1] else sf
  let sf := if tf &&& frame_bit .REV_FRAME_2 = frame_bit .REV_FRAME_2 then sf ++ [.REV_FRAME_2] else sf
  sf

/-- Modelled from the spec: the result of the external single-frame
translator, "a function `translate(subsequence, frame) -> lazy_amino_acid_sequence`
that is pure, side-effect-free, and O(1) to construct" — the lazy view is
identified by the inner nucleotide subsequence it is bound to and the chosen
reading frame (the `view_translate_single` adaptor lives in `translate.hpp`,
which is not among the source files). -/
structure translated_seq (α : Type) where
  seq : List α
  frame : translation_frame
deriving DecidableEq

/-- Modelled from the spec: the external single-frame translator constructor
(`urange[i] | view::translate_single(frame)` in the source delegates here). -/
def translate_single (s : List α) (f : translation_frame) : translated_seq α :=
  ⟨s, f⟩

/-- The state of a `view_translate_join` object (`translate_join.hpp`
lines 44–49): the wrapped outer range, the bitmask, and the resolved
frame list. -/
structure view_translate_join (α : Type) where
  urange : List (List α)
  tf : Nat
  selected_frames : List translation_frame
deriving DecidableEq

/-- The converting constructor (`translate_join.hpp` lines 104–119): stores the
range and bitmask and resolves `selected_frames` once. -/
def view_translate_join.construct (ur : List (List α)) (tf : Nat) : view_translate_join α :=
  { urange := ur, tf := tf, selected_frames := selected_frames_of tf }

/-- The method `size()` (`translate_join.hpp` lines 215–218): reads the wrapped range's
current size and multiplies by the frame count; nothing is cached. -/
def view_translate_join.size (v : view_translate_join α) : Nat :=
  v.urange.length * v.selected_frames.length

/-- The member `operator[]` (`translate_join.hpp` lines 245–251):
`index_frame = n % selected_frames.size()`,
`index_urange = (n - index_frame) / selected_frames.size()`, then delegation
of `urange[index_urange]` and `selected_frames[index_frame]` to the
single-frame translator.  Out-of-range access is undefined behaviour in the
source; the embedding totalises it with default values that no in-bounds
claim depends on. -/
def view_translate_join.element (v : view_translate_join α) (n : Nat) : translated_seq α :=
  let index_frame := n % v.selected_frames.length
  let index_urange := (n - index_frame) / v.selected_frames.length
  translate_single (v.urange.getD index_urange []) (v.selected_frames.getD index_frame .FWD_FRAME_0)

/-- External mutation of the wrapped outer collection through the caller's
retained mutable access (the view holds the collection handle; `tf` and
`selected_frames` belong to the view itself and are untouched). -/
def view_translate_join.setOuter (v : view_translate_join α) (ur : List (List α)) :
    view_translate_join α :=
  { v with urange := ur }

/-- The method `begin()` (`translate_join.hpp` line 152): a position-based random-access
iterator at position 0. -/
def view_translate_join.beginIdx (_v : view_translate_join α) : Nat := 0

/-- The method `end()` (`translate_join.hpp` line 184): a position-based random-access
iterator at position `size()`. -/
def view_translate_join.endIdx (v : view_translate_join α) : Nat := v.size

/-- Modelled from the spec: iteration from `begin()` to `end()` "is the same
flat order implied by the index arithmetic", i.e. it visits
`element 0, element 1, …, element (size - 1)` (the position-based
`random_access_iterator` class itself lives in
`range/detail/random_access_iterator.hpp`, which is not among the source
files). -/
def view_translate_join.toList (v : view_translate_join α) : List (translated_seq α) :=
  (List.range v.size).map v.element

/-- A call to `size()`: the method body only reads members, so the
post-state is the unchanged object (`translate_join.hpp` lines 215–218). -/
def view_translate_join.sizeCall (v : view_translate_join α) : Nat × view_translate_join α :=
  (v.size, v)

/-- A call to `operator[](n)`: the method body only reads members, so the
post-state is the unchanged object (`translate_join.hpp` lines 245–251). -/
def view_translate_join.elementCall (v : view_translate_join α) (n : Nat) :
    translated_seq α × view_translate_join α :=
  (v.element n, v)

/-- The compile-time capability of the wrapped outer range type that the
const overloads are gated on: whether `urng_t` models
`seqan3::ConstIterableRange`. -/
structure urange_traits where
  constIterable : Bool
deriving DecidableEq

/-- Availability of `begin() const` — gated `requires ConstIterableRange<urng_t>`
(`translate_join.hpp` line 159). -/
def const_begin_available (t : urange_traits) : Bool := t.constIterable

/-- Availability of `end() const` — gated `requires ConstIterableRange<urng_t>`
(`translate_join.hpp` line 191). -/
def const_end_available (t : urange_traits) : Bool := t.constIterable

/-- Availability of `size() const` — gated `requires ConstIterableRange<urng_t>`
(`translate_join.hpp` line 222). -/
def const_size_available (t : urange_traits) : Bool := t.constIterable

/-- Availability of `operator[] const` — gated `requires ConstIterableRange<urng_t>`
(`translate_join.hpp` line 255). -/
def const_subscript_available (t : urange_traits) : Bool := t.constIterable

/-- Read-only traversal of the joined view: const `begin`/`end`, const `size`
and const indexed access all available. -/
def const_traversal_available (t : urange_traits) : Bool :=
  const_begin_available t && const_end_available t &&
  const_size_available t && const_subscript_available t

/-- A token written to the debug stream by the range overload in
`debug_stream_range.hpp`: an opening bracket, a closing bracket, a comma, or
one element forwarded to the stream (`s << *b` / `s << l` delegates the
element to the next overload; the token keeps it abstract). -/
inductive stream_token (α : Type) where
  | openBracket
  | closeBracket
  | comma
  | elem (a : α)
deriving DecidableEq

/-- The Alphabet branch loop (`debug_stream_range.hpp` lines 98–99):
`for (auto && l : r) s << l;` — each element is appended to the stream in
range order. -/
def stream_all : List α → List (stream_token α) → List (stream_token α)
  | [], s => s
  | x :: xs, s => stream_all xs (s ++ [stream_token.elem x])

/-- The general-branch while loop (`debug_stream_range.hpp` lines 111–116):
while the iterator has not reached the end, write a comma, write the element,
advance. -/
def stream_comma_rest : List α → List (stream_token α) → List (stream_token α)
  | [], s => s
  | x :: xs, s => stream_comma_rest xs (s ++ [stream_token.comma, stream_token.elem x])

/-- The body of `operator<<(debug_stream_type &, rng_t &&)`
(`debug_stream_range.hpp` lines 86–121).  `alphabetBranch` is the value of the
compile-time condition `Alphabet<reference_t<rng_t>> && !is_uint_adaptation`;
when it is false the range is printed as an opening bracket, the first
element if any, a comma before every further element, and a closing
bracket. -/
def debug_stream_range (alphabetBranch : Bool) (r : List α) (s : List (stream_token α)) :
    List (stream_token α) :=
  if alphabetBranch then
    stream_all r s
  else
    let s := s ++ [stream_token.openBracket]
    match r with
    | [] => s ++ [stream_token.closeBracket]
    | x :: xs => stream_comma_rest xs (s ++ [stream_token.elem x]) ++ [stream_token.closeBracket]

/-- A concrete four-letter nucleotide alphabet used to instantiate the view in
witness theorems. -/
inductive Dna where
  | A
  | C
  | G
  | T
deriving DecidableEq

/-- The output shape the general (non-Alphabet) branch is specified to
produce: an opening bracket, the first element if any, then a comma before
every further element, then a closing bracket; the empty range prints as the
two brackets alone. -/
def bracketed_format (r : List α) : List (stream_token α) :=
  match r with
  | [] => [stream_token.openBracket, stream_token.closeBracket]
  | x :: xs =>
      stream_token.openBracket :: stream_token.elem x ::
        (xs.flatMap fun y => [stream_token.comma, stream_token.elem y]) ++
        [stream_token.closeBracket]

/-! ## Helper lemmas -/

theorem frame_bit_eq_pow (f : translation_frame) : frame_bit f = 2 ^ frame_pos f := by
  cases f <;> rfl

theorem and_frame_bit_iff (tf : Nat) (f : translation_frame) :
    (tf &&& frame_bit f = frame_bit f) ↔ tf.testBit (frame_pos f) := by
  rw [frame_bit_eq_pow, Nat.and_two_pow]
  have h2 := Nat.two_pow_pos (frame_pos f)
  cases h : tf.testBit (frame_pos f) with
  | false =>
      simp only [Bool.toNat_false, Nat.zero_mul, Bool.false_eq_true, iff_false]
      omega
  | true => simp

theorem selected_frames_of_eq_filter (tf : Nat) :
    selected_frames_of tf = canonical_frames.filter (fun f => tf.testBit (frame_pos f)) := by
  simp only [selected_frames_of, canonical_frames, List.filter_cons, List.filter_nil,
    and_frame_bit_iff, decide_eq_true_eq]
  split_ifs <;> rfl

theorem canonical_frames_nodup : canonical_frames.Nodup := by decide

theorem mem_canonical_frames (f : translation_frame) : f ∈ canonical_frames := by
  cases f <;> decide

/-! ## Claim theorems -/

/-- C3: for every bitmask value `b` (any subset of the six frame bits,
including the empty one) the frame list resolved at construction has length
between 0 and 6, contains no duplicate frame identifiers, contains exactly
the frames whose bits are set in `b`, and lists them strictly in the
canonical order forward-0,1,2, reverse-0,1,2 (it equals the canonical list
restricted to the set bits); the resolution is a total pure function of `b`
with no error condition. -/
theorem frame_selection_resolution (b : Nat) :
    (selected_frames_of b).length ≤ 6 ∧
    (selected_frames_of b).Nodup ∧
    (∀ f, f ∈ selected_frames_of b ↔ b.testBit (frame_pos f)) ∧
    selected_frames_of b = canonical_frames.filter (fun f => b.testBit (frame_pos f)) := by
  refine ⟨?_, ?_, ?_, selected_frames_of_eq_filter b⟩
  · rw [selected_frames_of_eq_filter]
    calc (canonical_frames.filter fun f => b.testBit (frame_pos f)).length
        ≤ canonical_frames.length := List.length_filter_le _ _
      _ = 6 := rfl
  · rw [selected_frames_of_eq_filter]
    exact canonical_frames_nodup.filter _
  · intro f
    rw [selected_frames_of_eq_filter, List.mem_filter]
    simp [mem_canonical_frames f]

/-- C1: for a view built from outer collection `O` and a bitmask resolving to
a non-empty frame list of length `s`, every flat index `n` with
`n < size()` is in range for both delegated accesses, and `element n` is
exactly the single-frame translation of `O[n / s]` under frame
`frames[n % s]` — the subtract-then-divide formula of `operator[]` coincides
with plain division. -/
theorem element_index_arithmetic (O : List (List α)) (tf n : Nat)
    (hs : 0 < (selected_frames_of tf).length)
    (hn : n < (view_translate_join.construct O tf).size) :
    n / (selected_frames_of tf).length < O.length ∧
    n % (selected_frames_of tf).length < (selected_frames_of tf).length ∧
    (view_translate_join.construct O tf).element n =
      translate_single (O.getD (n / (selected_frames_of tf).length) [])
        ((selected_frames_of tf).getD (n % (selected_frames_of tf).length) .FWD_FRAME_0) := by
  have hsize : (view_translate_join.construct O tf).size
      = O.length * (selected_frames_of tf).length := rfl
  rw [hsize] at hn
  refine ⟨(Nat.div_lt_iff_lt_mul hs).mpr hn, Nat.mod_lt _ hs, ?_⟩
  simp only [view_translate_join.element, view_translate_join.construct,
    ← Nat.div_eq_sub_mod_div]

/-- Witness for C1 at a concrete input: two sequences, bitmask 3
(forward-0 and forward-1 selected, `s = 2`), flat index 3. -/
theorem element_index_arithmetic_witness :
    0 < (selected_frames_of 3).length ∧
    3 < (view_translate_join.construct [[Dna.A], [Dna.C]] 3).size ∧
    (3 / (selected_frames_of 3).length < [[Dna.A], [Dna.C]].length ∧
     3 % (selected_frames_of 3).length < (selected_frames_of 3).length ∧
     (view_translate_join.construct [[Dna.A], [Dna.C]] 3).element 3 =
       translate_single ([[Dna.A], [Dna.C]].getD (3 / (selected_frames_of 3).length) [])
         ((selected_frames_of 3).getD (3 % (selected_frames_of 3).length) .FWD_FRAME_0)) :=
  ⟨by decide, by decide, element_index_arithmetic [[Dna.A], [Dna.C]] 3 3 (by decide) (by decide)⟩

/-- C9: under the precondition `n < size()`, the frame count is positive (so
the modulo and division in `operator[]` never divide by zero and the debug
assertion holds), and the subtract-then-divide formula
`(n - n % s) / s` used by the code equals `n / s`. -/
theorem subscript_no_div_by_zero (v : view_translate_join α) (n : Nat)
    (hn : n < v.size) :
    0 < v.selected_frames.length ∧
    (n - n % v.selected_frames.length) / v.selected_frames.length
      = n / v.selected_frames.length := by
  have hs : 0 < v.selected_frames.length := by
    rcases Nat.eq_zero_or_pos v.selected_frames.length with h | h
    · exfalso
      have hz : v.size = 0 := by
        simp [view_translate_join.size, h]
      omega
    · exact h
  exact ⟨hs, (Nat.div_eq_sub_mod_div).symm⟩

/-- Witness for C9 at a concrete input: one sequence, all six frames,
flat index 4. -/
theorem subscript_no_div_by_zero_witness :
    4 < (view_translate_join.construct [[Dna.G]] SIX_FRAME).size ∧
    (0 < (view_translate_join.construct [[Dna.G]] SIX_FRAME).selected_frames.length ∧
     (4 - 4 % (view_translate_join.construct [[Dna.G]] SIX_FRAME).selected_frames.length)
        / (view_translate_join.construct [[Dna.G]] SIX_FRAME).selected_frames.length
      = 4 / (view_translate_join.construct [[Dna.G]] SIX_FRAME).selected_frames.length) :=
  ⟨by decide, subscript_no_div_by_zero (view_translate_join.construct [[Dna.G]] SIX_FRAME) 4 (by decide)⟩

/-- C2: `size()` is the product of the current outer length and the fixed
frame count; after the wrapped outer collection is replaced through external
mutable access, a subsequent `size()` call reflects the new outer length
while the frame list and bitmask are unchanged — nothing is cached. -/
theorem size_recomputed (v : view_translate_join α) (ur : List (List α)) :
    v.size = v.urange.length * v.selected_frames.length ∧
    (v.setOuter ur).size = ur.length * v.selected_frames.length ∧
    (v.setOuter ur).selected_frames = v.selected_frames ∧
    (v.setOuter ur).tf = v.tf :=
  ⟨rfl, rfl, rfl, rfl⟩

/-- C5: bitmask 0 resolves to the empty frame list, so the view over any
outer collection has `size() = 0`, `begin() = end()` and an empty iteration;
and over an empty outer collection every bitmask yields `size() = 0`. -/
theorem degenerate_cases (O : List (List α)) (tf : Nat) :
    selected_frames_of 0 = [] ∧
    (view_translate_join.construct O 0).size = 0 ∧
    (view_translate_join.construct O 0).beginIdx = (view_translate_join.construct O 0).endIdx ∧
    (view_translate_join.construct O 0).toList = [] ∧
    (view_translate_join.construct ([] : List (List α)) tf).size = 0 := by
  have h0 : selected_frames_of 0 = [] := rfl
  refine ⟨h0, ?_, ?_, ?_, ?_⟩
  · simp [view_translate_join.size, view_translate_join.construct, h0]
  · simp [view_translate_join.beginIdx, view_translate_join.endIdx, view_translate_join.size,
      view_translate_join.construct, h0]
  · simp [view_translate_join.toList, view_translate_join.size, view_translate_join.construct, h0]
  · simp [view_translate_join.size, view_translate_join.construct]

/-- C6: `size()` and `operator[]` are pure reads — repeated calls with the
same index and no outer mutation return identical results, and every such
call leaves the stored frame list, bitmask and wrapped collection handle
unchanged. -/
theorem read_calls_pure (v : view_translate_join α) (n : Nat) :
    v.sizeCall = (v.size, v) ∧
    v.elementCall n = (v.element n, v) ∧
    (v.sizeCall.2.sizeCall).1 = v.sizeCall.1 ∧
    ((v.elementCall n).2.elementCall n).1 = (v.elementCall n).1 ∧
    v.sizeCall.2.selected_frames = v.selected_frames ∧
    v.sizeCall.2.tf = v.tf ∧
    v.sizeCall.2.urange = v.urange ∧
    (v.elementCall n).2 = v :=
  ⟨rfl, rfl, rfl, rfl, rfl, rfl, rfl, rfl⟩

/-- C7: read-only (const) traversal of the joined view — const begin/end,
const size and const indexed access — is available exactly when the wrapped
outer range is const-iterable, and in particular is not unconditionally
provided. -/
theorem const_traversal_propagated (t : urange_traits) :
    (const_traversal_available t = true ↔ t.constIterable = true) ∧
    const_traversal_available ⟨true⟩ = true ∧
    const_traversal_available ⟨false⟩ = false := by
  refine ⟨?_, rfl, rfl⟩
  simp [const_traversal_available, const_begin_available, const_end_available,
    const_size_available, const_subscript_available]

theorem toList_getD (v : view_translate_join α) (n : Nat) (hn : n < v.size)
    (d : translated_seq α) :
    v.toList.getD n d = v.element n := by
  unfold view_translate_join.toList
  rw [List.getD_eq_getElem?_getD, List.getElem?_map, List.getElem?_range hn]
  rfl

/-- C4: frames of one sequence are contiguous — for every sequence index `i`
and frame offset `k < s` the flat index `i * s + k` is in bounds and both
indexed access and the iteration sequence produce the translation of `O[i]`
under the `k`-th selected frame; iteration from `begin()` to `end()` visits
exactly the `size()` elements in this flat index order. -/
theorem frame_grouping (O : List (List α)) (tf i k : Nat)
    (hi : i < O.length) (hk : k < (selected_frames_of tf).length) :
    (view_translate_join.construct O tf).toList.length
      = (view_translate_join.construct O tf).size ∧
    i * (selected_frames_of tf).length + k < (view_translate_join.construct O tf).size ∧
    (view_translate_join.construct O tf).element (i * (selected_frames_of tf).length + k)
      = translate_single (O.getD i []) ((selected_frames_of tf).getD k .FWD_FRAME_0) ∧
    (view_translate_join.construct O tf).toList.getD
        (i * (selected_frames_of tf).length + k) (translate_single [] .FWD_FRAME_0)
      = translate_single (O.getD i []) ((selected_frames_of tf).getD k .FWD_FRAME_0) := by
  have hs : 0 < (selected_frames_of tf).length := Nat.lt_of_le_of_lt (Nat.zero_le k) hk
  have hsize : (view_translate_join.construct O tf).size
      = O.length * (selected_frames_of tf).length := rfl
  have hidx : i * (selected_frames_of tf).length + k
      < O.length * (selected_frames_of tf).length := by
    have h1 : i * (selected_frames_of tf).length + k
        < (i + 1) * (selected_frames_of tf).length := by
      rw [Nat.succ_mul]
      omega
    have h2 : (i + 1) * (selected_frames_of tf).length
        ≤ O.length * (selected_frames_of tf).length :=
      Nat.mul_le_mul hi (Nat.le_refl _)
    omega
  have hmod : (i * (selected_frames_of tf).length + k) % (selected_frames_of tf).length = k := by
    rw [Nat.mul_add_mod', Nat.mod_eq_of_lt hk]
  have hdiv : (i * (selected_frames_of tf).length + k) / (selected_frames_of tf).length = i := by
    rw [Nat.mul_comm i (selected_frames_of tf).length, Nat.mul_add_div hs,
      Nat.div_eq_of_lt hk, Nat.add_zero]
  have helem : (view_translate_join.construct O tf).element
      (i * (selected_frames_of tf).length + k)
      = translate_single (O.getD i []) ((selected_frames_of tf).getD k .FWD_FRAME_0) := by
    simp only [view_translate_join.element, view_translate_join.construct]
    rw [← Nat.div_eq_sub_mod_div, hdiv, hmod]
  refine ⟨?_, ?_, helem, ?_⟩
  · simp [view_translate_join.toList]
  · rw [hsize]
    exact hidx
  · rw [toList_getD _ _ (by rw [hsize]; exact hidx), helem]

/-- Witness for C4 at a concrete input: two sequences, bitmask 9
(forward-0 and reverse-0 selected, `s = 2`), sequence index 1, frame
offset 1. -/
theorem frame_grouping_witness :
    1 < [[Dna.A], [Dna.T]].length ∧
    1 < (selected_frames_of 9).length ∧
    ((view_translate_join.construct [[Dna.A], [Dna.T]] 9).toList.length
       = (view_translate_join.construct [[Dna.A], [Dna.T]] 9).size ∧
     1 * (selected_frames_of 9).length + 1
       < (view_translate_join.construct [[Dna.A], [Dna.T]] 9).size ∧
     (view_translate_join.construct [[Dna.A], [Dna.T]] 9).element
         (1 * (selected_frames_of 9).length + 1)
       = translate_single ([[Dna.A], [Dna.T]].getD 1 [])
           ((selected_frames_of 9).getD 1 .FWD_FRAME_0) ∧
     (view_translate_join.construct [[Dna.A], [Dna.T]] 9).toList.getD
         (1 * (selected_frames_of 9).length + 1) (translate_single [] .FWD_FRAME_0)
       = translate_single ([[Dna.A], [Dna.T]].getD 1 [])
           ((selected_frames_of 9).getD 1 .FWD_FRAME_0)) :=
  ⟨by decide, by decide, frame_grouping [[Dna.A], [Dna.T]] 9 1 1 (by decide) (by decide)⟩

theorem stream_comma_rest_spec (xs : List α) (s : List (stream_token α)) :
    stream_comma_rest xs s
      = s ++ (xs.flatMap fun y => [stream_token.comma, stream_token.elem y]) := by
  induction xs generalizing s with
  | nil => simp [stream_comma_rest]
  | cons x xs ih => simp [stream_comma_rest, ih]

theorem stream_all_spec (xs : List α) (s : List (stream_token α)) :
    stream_all xs s = s ++ xs.map stream_token.elem := by
  induction xs generalizing s with
  | nil => simp [stream_all]
  | cons x xs ih => simp [stream_all, ih]

/-- C8: when the element type does not take the Alphabet branch (as for
range-of-range input, whose elements are themselves ranges), the debug-stream
overload writes an opening bracket, the first element if any, then a comma
before each remaining element, then a closing bracket; the empty range
prints as the two brackets alone. -/
theorem debug_stream_bracketed (r : List α) (s : List (stream_token α)) :
    debug_stream_range false r s = s ++ bracketed_format r ∧
    debug_stream_range false ([] : List α) s
      = s ++ [stream_token.openBracket, stream_token.closeBracket] := by
  constructor
  · cases r with
    | nil => simp [debug_stream_range, bracketed_format]
    | cons x xs => simp [debug_stream_range, bracketed_format, stream_comma_rest_spec]
  · simp [debug_stream_range, bracketed_format]

/-- C10: when the element type models Alphabet (and is not an
unsigned-integer adaptation), the debug-stream overload writes the symbols
concatenated in range order, with no brackets and no comma separators. -/
theorem debug_stream_alphabet_branch (r : List α) (s : List (stream_token α)) :
    debug_stream_range true r s = s ++ r.map stream_token.elem ∧
    stream_token.openBracket ∉ r.map stream_token.elem ∧
    stream_token.closeBracket ∉ r.map stream_token.elem ∧
    stream_token.comma ∉ r.map stream_token.elem := by
  refine ⟨?_, ?_, ?_, ?_⟩
  · simp [debug_stream_range, stream_all_spec]
  · simp [List.mem_map]
  · simp [List.mem_map]
  · simp [List.mem_map]
